import Mathlib

/-!
Shallow embedding of the storage core of `src/db.c` (a minimal tabular data
engine): the row codec (`serialize_row` / `deserialize_row`), the paged row
store (`Table`, `row_slot`, `new_table`, `free_table`) and the operations
built on it (`execute_insert`, `execute_select`), together with the
command-layer validation (`prepare_insert`).

Bytes are modelled as `Nat`, byte buffers as `List Nat`.  Machine `uint32_t`
values are `Nat` with an explicit `< 2 ^ 32` bound where it matters.  The
`memcpy` of a `uint32_t` is modelled little-endian (the layout on the
platforms the program targets); every claim proved below is independent of
that byte order.
-/

set_option maxRecDepth 32768

namespace Db

/-- Compile-time column widths, `#define COLUMN_USERNAME_SIZE 32` and
`#define COLUMN_EMAIL_SIZE 255` in `src/db.c`. -/
def COLUMN_USERNAME_SIZE : Nat := 32

def COLUMN_EMAIL_SIZE : Nat := 255

/-- The `Row` struct of `src/db.c`: a `uint32_t id` and two fixed-size
`char` arrays, `char username[COLUMN_USERNAME_SIZE + 1]` and
`char email[COLUMN_EMAIL_SIZE + 1]` (one extra byte each for the
terminating null character).  The arrays are modelled as byte lists whose
length is fixed by `wfRow` below, exactly as the C type fixes it. -/
structure Row where
  id : Nat
  username : List Nat
  email : List Nat
deriving Repr, DecidableEq

/-- `const uint32_t ID_SIZE = size_of_attribute(Row, id)`: `sizeof(uint32_t) = 4`. -/
def ID_SIZE : Nat := 4

/-- `const uint32_t USERNAME_SIZE = size_of_attribute(Row, username)`:
the size of the array `char username[COLUMN_USERNAME_SIZE + 1]`. -/
def USERNAME_SIZE : Nat := COLUMN_USERNAME_SIZE + 1

/-- `const uint32_t EMAIL_SIZE = size_of_attribute(Row, email)`:
the size of the array `char email[COLUMN_EMAIL_SIZE + 1]`. -/
def EMAIL_SIZE : Nat := COLUMN_EMAIL_SIZE + 1

def ID_OFFSET : Nat := 0

def USERNAME_OFFSET : Nat := ID_OFFSET + ID_SIZE

def EMAIL_OFFSET : Nat := USERNAME_OFFSET + USERNAME_SIZE

def ROW_SIZE : Nat := ID_SIZE + USERNAME_SIZE + EMAIL_SIZE

def PAGE_SIZE : Nat := 4096

/-- `#define TABLE_MAX_PAGES 100`. -/
def TABLE_MAX_PAGES : Nat := 100

/-- `const uint32_t ROWS_PER_PAGE = PAGE_SIZE / ROW_SIZE` (C unsigned
integer division, i.e. floor). -/
def ROWS_PER_PAGE : Nat := PAGE_SIZE / ROW_SIZE

def TABLE_MAX_ROWS : Nat := ROWS_PER_PAGE * TABLE_MAX_PAGES

/-- Well-formedness that the C type system guarantees for every value of
type `Row`: the id fits in `uint32_t` and the two arrays have exactly their
declared sizes. -/
def wfRow (r : Row) : Prop :=
  r.id < 2 ^ 32 ∧ r.username.length = USERNAME_SIZE ∧ r.email.length = EMAIL_SIZE

instance (r : Row) : Decidable (wfRow r) := by unfold wfRow; infer_instance

/-- The four bytes of a `uint32_t` in memory (little-endian), as copied by
`memcpy(destination + ID_OFFSET, &(source->id), ID_SIZE)`. -/
def idToBytes (id : Nat) : List Nat :=
  [id % 256, id / 256 % 256, id / 65536 % 256, id / 16777216 % 256]

/-- Reassembling a `uint32_t` from its four in-memory bytes, as done by
`memcpy(&(destination->id), source + ID_OFFSET, ID_SIZE)`. -/
def idFromBytes : List Nat → Nat
  | [b0, b1, b2, b3] => b0 + b1 * 256 + b2 * 65536 + b3 * 16777216
  | _ => 0

/-- `serialize_row` of `src/db.c`: three `memcpy` calls laying out the id
bytes at `ID_OFFSET`, the whole `username` array (all `USERNAME_SIZE`
bytes) at `USERNAME_OFFSET` and the whole `email` array at `EMAIL_OFFSET`. -/
def serialize_row (source : Row) : List Nat :=
  idToBytes source.id ++ source.username ++ source.email

/-- `deserialize_row` of `src/db.c`: the inverse three `memcpy` calls,
reading `ID_SIZE`, `USERNAME_SIZE` and `EMAIL_SIZE` bytes at the same
fixed offsets of the slot. -/
def deserialize_row (source : List Nat) : Row :=
  { id := idFromBytes ((source.drop ID_OFFSET).take ID_SIZE)
    username := (source.drop USERNAME_OFFSET).take USERNAME_SIZE
    email := (source.drop EMAIL_OFFSET).take EMAIL_SIZE }

/-- The C-string content of a fixed-size `char` array: the bytes before
the first null terminator (what `strlen`/`printf %s`/`strcpy` read). -/
def cstr (l : List Nat) : List Nat := l.takeWhile (fun b => b ≠ 0)

/-- The array holds a C string of length at most `w`: a null terminator
occurs within its first `w + 1` bytes. -/
def fitsWidth (l : List Nat) (w : Nat) : Prop := (cstr l).length ≤ w

instance (l : List Nat) (w : Nat) : Decidable (fitsWidth l w) := by
  unfold fitsWidth; infer_instance

theorem length_idToBytes (id : Nat) : (idToBytes id).length = ID_SIZE := rfl

theorem idFromBytes_idToBytes (id : Nat) (h : id < 2 ^ 32) :
    idFromBytes (idToBytes id) = id := by
  simp only [idToBytes, idFromBytes]
  omega

theorem length_serialize_row (r : Row) (h : wfRow r) :
    (serialize_row r).length = ROW_SIZE := by
  obtain ⟨-, hu, he⟩ := h
  simp [serialize_row, ROW_SIZE, hu, he, length_idToBytes, ID_SIZE]
  decide

/-- Codec round trip on the raw struct bytes: deserializing a serialized
well-formed row restores the row exactly. -/
theorem deserialize_serialize (r : Row) (h : wfRow r) :
    deserialize_row (serialize_row r) = r := by
  obtain ⟨hid, hu, he⟩ := h
  have h4 : (idToBytes r.id).length = 4 := rfl
  unfold deserialize_row serialize_row
  cases r with
  | mk id username email =>
    simp only at hu he hid ⊢
    congr 1
    · rw [show ID_OFFSET = 0 from rfl, List.drop_zero, List.append_assoc,
        show ID_SIZE = (idToBytes id).length from rfl,
        List.take_left, idFromBytes_idToBytes id hid]
    · rw [show USERNAME_OFFSET = (idToBytes id).length by
          simp [USERNAME_OFFSET, ID_OFFSET, ID_SIZE, idToBytes],
        List.append_assoc, List.drop_left,
        show USERNAME_SIZE = username.length from hu.symm, List.take_left]
    · rw [show EMAIL_OFFSET = ((idToBytes id) ++ username).length by
          simp [EMAIL_OFFSET, USERNAME_OFFSET, ID_OFFSET, ID_SIZE, USERNAME_SIZE,
            idToBytes, hu] <;> omega,
        List.drop_left]
      exact List.take_of_length_le (le_of_eq he)

/-- Result type of the execution layer (`ExecuteResult` in `src/db.c`). -/
inductive ExecuteResult where
  | EXECUTE_SUCCESS
  | EXECUTE_TABLE_FULL
deriving Repr, DecidableEq

/-- The `Table` struct of `src/db.c`: a row counter and an array
`void* pages[TABLE_MAX_PAGES]` of page pointers, each slot either `NULL`
(here `none`) or owning a `PAGE_SIZE`-byte page (here `some` of the page's
bytes).  The array length is fixed to `TABLE_MAX_PAGES` by the C type; the
model keeps it as the length of the list (established by `new_table` and
preserved by every operation). -/
structure Table where
  num_rows : Nat
  pages : List (Option (List Nat))
deriving Repr, DecidableEq

/-- Reading the page-pointer slot `table->pages[p]`. -/
def pageAt (t : Table) (p : Nat) : Option (List Nat) := t.pages.getD p none

/-- A freshly `malloc`ed page.  `malloc(PAGE_SIZE)` returns `PAGE_SIZE`
bytes of indeterminate content; the model fixes them to zero.  No claim
depends on the initial bytes: every byte that is ever deserialized has
been serialized first. -/
def freshPage : List Nat := List.replicate PAGE_SIZE 0

/-- `row_slot` of `src/db.c`: computes `page_num = row_num / ROWS_PER_PAGE`,
allocates the page on first touch (`if (page == NULL) page = ... malloc`),
and returns `page + byte_offset` with
`byte_offset = (row_num % ROWS_PER_PAGE) * ROW_SIZE`.  The model returns
the possibly-updated table together with the slot address as the pair
(page index, byte offset inside the page). -/
def row_slot (table : Table) (row_num : Nat) : Table × Nat × Nat :=
  let page_num := row_num / ROWS_PER_PAGE
  let byte_offset := row_num % ROWS_PER_PAGE * ROW_SIZE
  match pageAt table page_num with
  | some _ => (table, page_num, byte_offset)
  | none =>
      ({ table with pages := table.pages.set page_num (some freshPage) },
        page_num, byte_offset)

/-- `new_table` of `src/db.c`: `num_rows = 0` and all `TABLE_MAX_PAGES`
page slots set to `NULL`. -/
def new_table : Table :=
  { num_rows := 0, pages := List.replicate TABLE_MAX_PAGES none }

/-- Overwriting `bs.length` bytes of a page starting at byte `off`
(the effect of `serialize_row`'s `memcpy` calls through a slot pointer). -/
def writeBytes (page : List Nat) (off : Nat) (bs : List Nat) : List Nat :=
  page.take off ++ bs ++ page.drop (off + bs.length)

/-- Reading `len` bytes of a page starting at byte `off` (the bytes a slot
pointer exposes to `deserialize_row`). -/
def readBytes (page : List Nat) (off len : Nat) : List Nat :=
  (page.drop off).take len

/-- `execute_insert` of `src/db.c`: full check against `TABLE_MAX_ROWS`
(`>=`), then `serialize_row(row_to_insert, row_slot(table, table->num_rows))`
followed by `table->num_rows += 1`.  The `Row` argument is
`statement->row_to_insert`. -/
def execute_insert (row : Row) (table : Table) : ExecuteResult × Table :=
  if TABLE_MAX_ROWS ≤ table.num_rows then
    (.EXECUTE_TABLE_FULL, table)
  else
    let s := row_slot table table.num_rows
    let t := s.1
    let page := (pageAt t s.2.1).getD []
    let written := some (writeBytes page s.2.2 (serialize_row row))
    let t2 := { t with pages := t.pages.set s.2.1 written }
    (.EXECUTE_SUCCESS, { t2 with num_rows := table.num_rows + 1 })

/-- The loop body of `execute_select` for row indices `i, i+1, ..., i+k-1`:
each iteration calls `row_slot(table, i)` (which may allocate) and
`deserialize_row` on the `ROW_SIZE` bytes of the slot.  The decoded rows
are collected in order (the C code hands each to `print_row`, which
belongs to the excluded display layer). -/
def selectFrom : Table → Nat → Nat → Table × List Row
  | t, _, 0 => (t, [])
  | t, i, k + 1 =>
      let s := row_slot t i
      let row := deserialize_row
        (readBytes ((pageAt s.1 s.2.1).getD []) s.2.2 ROW_SIZE)
      let rest := selectFrom s.1 (i + 1) k
      (rest.1, row :: rest.2)

/-- `execute_select` of `src/db.c`: iterates `i = 0 .. num_rows - 1`,
deserializing row `i` from `row_slot(table, i)`. -/
def execute_select (table : Table) : Table × List Row :=
  selectFrom table 0 table.num_rows

/-- Running a sequence of `execute_insert` calls, collecting every call's
`ExecuteResult` in order. -/
def insertRun : List Row → Table → Table × List ExecuteResult
  | [], t => (t, [])
  | r :: rs, t =>
      let s := execute_insert r t
      let rest := insertRun rs s.2
      (rest.1, s.1 :: rest.2)

/-- The table after a sequence of `execute_insert` calls. -/
def insertList (rs : List Row) (t : Table) : Table := (insertRun rs t).1

/-- The loop of `free_table` in `src/db.c`:
`for (int i = 0; table->pages[i]; i++) free(table->pages[i]);`.
The loop has no `i < TABLE_MAX_PAGES` bound: it stops at the first `NULL`
slot.  `some k` means the loop freed the `k` allocated pages at indices
`0 .. k-1` (each exactly once) and stopped at slot `k`, which is `NULL`;
`none` means every slot in the array was non-`NULL`, so the loop went on
to read `table->pages[TABLE_MAX_PAGES]`, past the end of the array —
undefined behavior in C. -/
def free_scan : List (Option (List Nat)) → Option Nat
  | [] => none
  | none :: _ => some 0
  | some _ :: rest => (free_scan rest).map (· + 1)

/-- `free_table` of `src/db.c`: the page-freeing loop, then `free(table)`.
The result is the outcome of the loop (see `free_scan`). -/
def free_table (t : Table) : Option Nat := free_scan t.pages

/-- Table states reachable through the core's interface: construction
(`new_table`), append (`execute_insert`, with a `Row` as the C type system
produces it: fixed-size arrays and a `uint32_t` id), and scan
(`execute_select`). -/
inductive Reachable : Table → Prop where
  | base : Reachable new_table
  | insert (r : Row) {t : Table} : wfRow r → Reachable t →
      Reachable (execute_insert r t).2
  | select {t : Table} : Reachable t → Reachable (execute_select t).1

/-- Result type of the statement-preparation layer (`PrepareResult` in
`src/db.c`). -/
inductive PrepareResult where
  | PREPARE_SUCCESS
  | PREPARE_NEGATIVE_ID
  | PREPARE_STRING_TOO_LONG
  | PREPARE_SYNTAX_ERROR
  | PREPARE_UNRECOGNIZED_STATEMENT
deriving Repr, DecidableEq

/-- The successive `strtok(input_buffer->buffer, " ")` calls of
`prepare_insert`: the maximal nonempty runs of non-space bytes of the
input line, in order (`strtok` skips over runs of the delimiter). -/
def tokenize (line : List Nat) : List (List Nat) :=
  (line.splitOn 32).filter (fun t => !t.isEmpty)

/-- Whether a byte is whitespace for `atoi`/`isspace` in the C locale:
space or one of `\t \n \v \f \r`. -/
def isSpaceByte (b : Nat) : Bool := b == 32 || (9 ≤ b && b ≤ 13)

def isDigitByte (b : Nat) : Bool := 48 ≤ b && b ≤ 57

/-- Decimal value of a digit-byte string. -/
def digitsVal (l : List Nat) : Nat := l.foldl (fun acc b => acc * 10 + (b - 48)) 0

/-- `atoi(id_string)` of the C standard library, as used by
`prepare_insert`: skip leading whitespace, an optional sign, then consume
decimal digits; with no digits the value is 0.  The value is modelled as
an exact integer (`atoi` on a value outside `int` range is undefined
behavior in C and is not modelled). -/
def atoi (s : List Nat) : Int :=
  match s.dropWhile isSpaceByte with
  | 45 :: rest => -(digitsVal (rest.takeWhile isDigitByte) : Int)
  | 43 :: rest => (digitsVal (rest.takeWhile isDigitByte) : Int)
  | other => (digitsVal (other.takeWhile isDigitByte) : Int)

/-- `strcpy(field, token)` into a fixed-size `char field[width]`: the
C-string content of the token followed by the null terminator.  The bytes
of the array beyond the terminator are whatever was on the stack
(`Statement statement;` is uninitialized); the model fixes them to zero.
No claim depends on the bytes beyond the terminator. -/
def strcpyField (src : List Nat) (width : Nat) : List Nat :=
  cstr src ++ [0] ++ List.replicate (width - ((cstr src).length + 1)) 0

/-- `prepare_insert` of `src/db.c`, applied to the input line (the buffer
already has its trailing newline stripped by `read_input`).  It tokenizes
the line (`strtok` four times: keyword, id, username, email), reports a
syntax error if any of the last three is missing, rejects a negative
`atoi` value, rejects over-long text fields (`strlen` against the column
widths), and otherwise fills `statement->row_to_insert`
(`id` is converted from `int` to `uint32_t`, i.e. reduced mod `2 ^ 32`;
the two strings are copied by `strcpy`).  The model returns the prepared
row where the C code fills `statement->row_to_insert`. -/
def prepare_insert (line : List Nat) : PrepareResult × Option Row :=
  match tokenize line with
  | _keyword :: id_string :: username :: email :: _ =>
      let id := atoi id_string
      if id < 0 then (.PREPARE_NEGATIVE_ID, none)
      else if COLUMN_USERNAME_SIZE < (cstr username).length then
        (.PREPARE_STRING_TOO_LONG, none)
      else if COLUMN_EMAIL_SIZE < (cstr email).length then
        (.PREPARE_STRING_TOO_LONG, none)
      else
        (.PREPARE_SUCCESS, some
          { id := id.toNat % 2 ^ 32
            username := strcpyField username USERNAME_SIZE
            email := strcpyField email EMAIL_SIZE })
  | _ => (.PREPARE_SYNTAX_ERROR, none)

theorem ROW_SIZE_eq : ROW_SIZE = 293 := rfl

theorem ROWS_PER_PAGE_eq : ROWS_PER_PAGE = 13 := by decide

theorem TABLE_MAX_ROWS_eq : TABLE_MAX_ROWS = 1300 := by decide

theorem pageAt_mk (n : Nat) (l : List (Option (List Nat))) (p : Nat) :
    pageAt ⟨n, l⟩ p = l.getD p none := rfl

theorem getD_set_ne (l : List (Option (List Nat))) (p q : Nat)
    (v : Option (List Nat)) (h : p ≠ q) :
    (l.set p v).getD q none = l.getD q none := by
  rw [List.getD_eq_getElem?_getD, List.getD_eq_getElem?_getD, List.getElem?_set_ne h]

theorem getD_set_self (l : List (Option (List Nat))) (p : Nat)
    (v : Option (List Nat)) (h : p < l.length) :
    (l.set p v).getD p none = v := by
  rw [List.getD_eq_getElem?_getD, List.getElem?_set_self]
  · simp
  · exact h

theorem pageAt_new_table (p : Nat) : pageAt new_table p = none := by
  rw [new_table, pageAt_mk, List.getD_eq_getElem?_getD]
  rcases lt_or_ge p TABLE_MAX_PAGES with h | h
  · rw [List.getElem?_replicate_of_lt h]; rfl
  · rw [List.getElem?_eq_none]; · rfl
    · simpa using h

theorem length_freshPage : freshPage.length = PAGE_SIZE := by
  simp [freshPage]

theorem length_writeBytes (page : List Nat) (off : Nat) (bs : List Nat)
    (h : off + bs.length ≤ page.length) :
    (writeBytes page off bs).length = page.length := by
  simp only [writeBytes, List.length_append, List.length_take, List.length_drop]
  omega

theorem readBytes_writeBytes_self (page : List Nat) (off : Nat) (bs : List Nat)
    (h : off ≤ page.length) :
    readBytes (writeBytes page off bs) off bs.length = bs := by
  have hlen : (page.take off).length = off := by
    simp only [List.length_take]; omega
  rw [readBytes, writeBytes, List.append_assoc, List.drop_left' hlen,
    List.take_left]

theorem readBytes_writeBytes_self2 (page : List Nat) (off len : Nat)
    (bs : List Nat) (h : off ≤ page.length) (hl : len = bs.length) :
    readBytes (writeBytes page off bs) off len = bs := by
  rw [hl]
  exact readBytes_writeBytes_self page off bs h

theorem readBytes_writeBytes_before (page : List Nat) (off1 off2 len : Nat)
    (bs : List Nat) (h1 : off2 + len ≤ off1) (h2 : off1 ≤ page.length) :
    readBytes (writeBytes page off1 bs) off2 len = readBytes page off2 len := by
  have hlen : (page.take off1).length = off1 := by
    simp only [List.length_take]; omega
  rw [readBytes, readBytes, writeBytes, List.append_assoc,
    List.drop_append_of_le_length (by omega),
    List.take_append_of_le_length (by simp only [List.length_drop, hlen]; omega),
    List.drop_take, List.take_take, min_eq_left (by omega)]

theorem row_slot_of_some (t : Table) (n : Nat)
    (h : (pageAt t (n / ROWS_PER_PAGE)).isSome) :
    row_slot t n = (t, n / ROWS_PER_PAGE, n % ROWS_PER_PAGE * ROW_SIZE) := by
  rw [row_slot]
  obtain ⟨pg, hpg⟩ := Option.isSome_iff_exists.mp h
  rw [hpg]

theorem row_slot_of_none (t : Table) (n : Nat)
    (h : pageAt t (n / ROWS_PER_PAGE) = none) :
    row_slot t n =
      ({ t with pages := t.pages.set (n / ROWS_PER_PAGE) (some freshPage) },
        n / ROWS_PER_PAGE, n % ROWS_PER_PAGE * ROW_SIZE) := by
  rw [row_slot, h]

/-- Structural invariant of every table the core can build: the page
array has its declared length, the row counter is within capacity, and a
page slot is allocated exactly when some row index below `num_rows` lands
in that page. -/
def InvA (t : Table) : Prop :=
  t.pages.length = TABLE_MAX_PAGES ∧ t.num_rows ≤ TABLE_MAX_ROWS ∧
  ∀ p, p < TABLE_MAX_PAGES →
    ((pageAt t p).isSome ↔ p * ROWS_PER_PAGE < t.num_rows)

/-- Size invariant: every allocated page consists of exactly `PAGE_SIZE`
bytes. -/
def InvB (t : Table) : Prop :=
  ∀ p pg, pageAt t p = some pg → pg.length = PAGE_SIZE

theorem InvA_new_table : InvA new_table := by
  refine ⟨by simp [new_table], by simp [new_table, TABLE_MAX_ROWS_eq], ?_⟩
  intro p _
  rw [pageAt_new_table]
  simp [new_table]

theorem InvB_new_table : InvB new_table := by
  intro p pg h
  rw [pageAt_new_table] at h
  cases h

theorem page_of_lt_max (n : Nat) (h : n < TABLE_MAX_ROWS) :
    n / ROWS_PER_PAGE < TABLE_MAX_PAGES := by
  rw [TABLE_MAX_ROWS_eq] at h
  rw [ROWS_PER_PAGE_eq, TABLE_MAX_PAGES]
  omega

theorem slot_end_le_page_size (n : Nat) :
    n % ROWS_PER_PAGE * ROW_SIZE + ROW_SIZE ≤ PAGE_SIZE := by
  rw [ROWS_PER_PAGE_eq, ROW_SIZE_eq, PAGE_SIZE]
  omega

theorem slot_disjoint (m n : Nat) (hmn : m < n)
    (hpage : m / ROWS_PER_PAGE = n / ROWS_PER_PAGE) :
    m % ROWS_PER_PAGE * ROW_SIZE + ROW_SIZE ≤ n % ROWS_PER_PAGE * ROW_SIZE := by
  rw [ROWS_PER_PAGE_eq] at hpage ⊢
  rw [ROW_SIZE_eq]
  omega

/-- Effect of a non-full `execute_insert`: the slot page (the existing one,
or a fresh one on first touch) gets the serialized row written at the
slot's byte offset, and the counter advances. -/
theorem execute_insert_shape (r : Row) (t : Table)
    (hlen : t.pages.length = TABLE_MAX_PAGES)
    (h : t.num_rows < TABLE_MAX_ROWS) :
    ∃ pg, (pageAt t (t.num_rows / ROWS_PER_PAGE) = some pg ∨
        (pageAt t (t.num_rows / ROWS_PER_PAGE) = none ∧ pg = freshPage)) ∧
      execute_insert r t = (.EXECUTE_SUCCESS,
        { num_rows := t.num_rows + 1
          pages := t.pages.set (t.num_rows / ROWS_PER_PAGE)
            (some (writeBytes pg (t.num_rows % ROWS_PER_PAGE * ROW_SIZE)
              (serialize_row r))) }) := by
  have hp : t.num_rows / ROWS_PER_PAGE < TABLE_MAX_PAGES := page_of_lt_max _ h
  rw [execute_insert, if_neg (not_le.mpr h)]
  cases hpg : pageAt t (t.num_rows / ROWS_PER_PAGE) with
  | some pg =>
      refine ⟨pg, .inl rfl, ?_⟩
      rw [row_slot_of_some t t.num_rows (by rw [hpg]; rfl)]
      simp only [hpg, Option.getD_some]
  | none =>
      refine ⟨freshPage, .inr ⟨rfl, rfl⟩, ?_⟩
      rw [row_slot_of_none t t.num_rows hpg]
      simp only [pageAt_mk,
        getD_set_self t.pages _ _ (by rw [hlen]; exact hp),
        Option.getD_some, List.set_set]

theorem execute_insert_full (r : Row) (t : Table)
    (h : TABLE_MAX_ROWS ≤ t.num_rows) :
    execute_insert r t = (.EXECUTE_TABLE_FULL, t) := by
  rw [execute_insert, if_pos h]

theorem execute_insert_num_rows (r : Row) (t : Table) :
    (execute_insert r t).2.num_rows =
      if t.num_rows < TABLE_MAX_ROWS then t.num_rows + 1 else t.num_rows := by
  rw [execute_insert]
  by_cases h : TABLE_MAX_ROWS ≤ t.num_rows
  · rw [if_pos h, if_neg (not_lt.mpr h)]
  · rw [if_neg h, if_pos (not_le.mp h)]

theorem execute_insert_result (r : Row) (t : Table) :
    (execute_insert r t).1 =
      if t.num_rows < TABLE_MAX_ROWS then .EXECUTE_SUCCESS
      else .EXECUTE_TABLE_FULL := by
  rw [execute_insert]
  by_cases h : TABLE_MAX_ROWS ≤ t.num_rows
  · rw [if_pos h, if_neg (not_lt.mpr h)]
  · rw [if_neg h, if_pos (not_le.mp h)]

theorem execute_insert_InvA (r : Row) (t : Table) (hA : InvA t) :
    InvA (execute_insert r t).2 := by
  obtain ⟨hlen, hcap, hiff⟩ := hA
  by_cases h : t.num_rows < TABLE_MAX_ROWS
  · obtain ⟨pg, -, heq⟩ := execute_insert_shape r t hlen h
    rw [heq]
    set p := t.num_rows / ROWS_PER_PAGE with hp
    refine ⟨by simpa using hlen, h, ?_⟩
    intro q hq
    by_cases hqp : q = p
    · rw [hqp, pageAt_mk, getD_set_self _ _ _ (by rw [hlen]; exact page_of_lt_max _ h)]
      simp only [Option.isSome_some, true_iff]
      show p * ROWS_PER_PAGE < t.num_rows + 1
      have hle : p * ROWS_PER_PAGE ≤ t.num_rows := by
        rw [hp]; exact Nat.div_mul_le_self t.num_rows ROWS_PER_PAGE
      omega
    · have hiq : (t.pages.getD q none).isSome ↔ q * ROWS_PER_PAGE < t.num_rows :=
        hiff q hq
      rw [pageAt_mk, getD_set_ne _ _ _ _ (Ne.symm hqp), hiq]
      have hne : q * ROWS_PER_PAGE ≠ t.num_rows := by
        intro hcontra
        apply hqp
        rw [hp, ← hcontra, ROWS_PER_PAGE_eq]
        omega
      show q * ROWS_PER_PAGE < t.num_rows ↔ q * ROWS_PER_PAGE < t.num_rows + 1
      omega
  · rw [execute_insert_full r t (not_lt.mp h)]
    exact ⟨hlen, hcap, hiff⟩

theorem execute_insert_InvB (r : Row) (t : Table) (hA : InvA t) (hB : InvB t)
    (hwf : wfRow r) : InvB (execute_insert r t).2 := by
  obtain ⟨hlen, hcap, hiff⟩ := hA
  by_cases h : t.num_rows < TABLE_MAX_ROWS
  · obtain ⟨pg, hpg, heq⟩ := execute_insert_shape r t hlen h
    have hpglen : pg.length = PAGE_SIZE := by
      rcases hpg with h1 | ⟨h1, h2⟩
      · exact hB _ _ h1
      · rw [h2]; exact length_freshPage
    rw [heq]
    intro q pg' hpg'
    rw [pageAt_mk] at hpg'
    by_cases hqp : q = t.num_rows / ROWS_PER_PAGE
    · rw [hqp, getD_set_self _ _ _ (by rw [hlen]; exact page_of_lt_max _ h)] at hpg'
      cases hpg'
      rw [length_writeBytes]
      · exact hpglen
      · rw [length_serialize_row r hwf, hpglen]
        exact slot_end_le_page_size t.num_rows
    · rw [getD_set_ne _ _ _ _ (fun he => hqp he.symm)] at hpg'
      exact hB q pg' hpg'
  · rw [execute_insert_full r t (not_lt.mp h)]
    exact hB

/-- The `ROW_SIZE` bytes of the slot of logical row `n` (without the
allocation side effect of `row_slot`). -/
def rowBytesAt (t : Table) (n : Nat) : List Nat :=
  readBytes ((pageAt t (n / ROWS_PER_PAGE)).getD [])
    (n % ROWS_PER_PAGE * ROW_SIZE) ROW_SIZE

/-- The sequence of records currently stored in the table, in logical
order: the decode of every slot below `num_rows`. -/
def storedRows (t : Table) : List Row :=
  (List.range t.num_rows).map fun n => deserialize_row (rowBytesAt t n)

theorem storedRows_new_table : storedRows new_table = [] := by
  rw [storedRows]
  rfl

theorem execute_insert_storedRows (r : Row) (t : Table) (hA : InvA t)
    (hB : InvB t) (hwf : wfRow r) (h : t.num_rows < TABLE_MAX_ROWS) :
    storedRows (execute_insert r t).2 = storedRows t ++ [r] := by
  obtain ⟨hlen, hcap, hiff⟩ := hA
  obtain ⟨pg, hpg, heq⟩ := execute_insert_shape r t hlen h
  have hplt : t.num_rows / ROWS_PER_PAGE < TABLE_MAX_PAGES := page_of_lt_max _ h
  have hpglen : pg.length = PAGE_SIZE := by
    rcases hpg with h1 | ⟨h1, h2⟩
    · exact hB _ _ h1
    · rw [h2]; exact length_freshPage
  have hoff : t.num_rows % ROWS_PER_PAGE * ROW_SIZE ≤ pg.length := by
    have := slot_end_le_page_size t.num_rows
    omega
  rw [heq]
  show (List.range (t.num_rows + 1)).map _ = _
  rw [List.range_succ, List.map_append, storedRows]
  congr 1
  · apply List.map_congr_left
    intro m hm
    rw [List.mem_range] at hm
    congr 1
    show readBytes ((t.pages.set _ _ |>.getD (m / ROWS_PER_PAGE) none).getD [])
        (m % ROWS_PER_PAGE * ROW_SIZE) ROW_SIZE = rowBytesAt t m
    by_cases hqp : m / ROWS_PER_PAGE = t.num_rows / ROWS_PER_PAGE
    · rcases hpg with h1 | ⟨h1, -⟩
      · rw [hqp, getD_set_self _ _ _ (by rw [hlen]; exact hplt), Option.getD_some,
          readBytes_writeBytes_before _ _ _ _ _
            (slot_disjoint m t.num_rows hm hqp) hoff,
          rowBytesAt, hqp, h1, Option.getD_some]
      · exfalso
        have hnone : ¬ (pageAt t (t.num_rows / ROWS_PER_PAGE)).isSome := by
          rw [h1]; simp
        rw [hiff _ hplt] at hnone
        have hle : t.num_rows / ROWS_PER_PAGE * ROWS_PER_PAGE ≤ m := by
          rw [← hqp]
          exact Nat.div_mul_le_self m ROWS_PER_PAGE
        omega
    · rw [getD_set_ne _ _ _ _ (fun he => hqp he.symm)]
      rfl
  · simp only [List.map_cons, List.map_nil]
    congr 1
    show deserialize_row
        (readBytes ((t.pages.set _ _ |>.getD (t.num_rows / ROWS_PER_PAGE) none).getD [])
          (t.num_rows % ROWS_PER_PAGE * ROW_SIZE) ROW_SIZE) = r
    rw [getD_set_self _ _ _ (by rw [hlen]; exact hplt), Option.getD_some,
      readBytes_writeBytes_self2 _ _ _ _ hoff (length_serialize_row r hwf).symm,
      deserialize_serialize r hwf]

theorem insertList_nil (t : Table) : insertList [] t = t := rfl

theorem insertList_cons (r : Row) (rs : List Row) (t : Table) :
    insertList (r :: rs) t = insertList rs (execute_insert r t).2 := rfl

theorem insertRun_cons (r : Row) (rs : List Row) (t : Table) :
    (insertRun (r :: rs) t).2 =
      (execute_insert r t).1 :: (insertRun rs (execute_insert r t).2).2 := rfl

theorem insertList_num_rows (rs : List Row) :
    ∀ t : Table, t.num_rows ≤ TABLE_MAX_ROWS →
      (insertList rs t).num_rows = min (t.num_rows + rs.length) TABLE_MAX_ROWS := by
  induction rs with
  | nil =>
      intro t h
      rw [insertList_nil, List.length_nil]
      omega
  | cons r rs ih =>
      intro t h
      have h2 : (execute_insert r t).2.num_rows ≤ TABLE_MAX_ROWS := by
        rw [execute_insert_num_rows]; split <;> omega
      rw [insertList_cons, ih _ h2, execute_insert_num_rows, List.length_cons]
      split <;> omega

theorem insertRun_results (rs : List Row) :
    ∀ t : Table, (insertRun rs t).2 = (List.range rs.length).map
      (fun i => if t.num_rows + i < TABLE_MAX_ROWS then ExecuteResult.EXECUTE_SUCCESS
        else ExecuteResult.EXECUTE_TABLE_FULL) := by
  induction rs with
  | nil => intro t; rfl
  | cons r rs ih =>
      intro t
      rw [insertRun_cons, ih, execute_insert_result, List.length_cons,
        List.range_succ_eq_map, List.map_cons, List.map_map]
      by_cases hfull : t.num_rows < TABLE_MAX_ROWS
      · have hnum : (execute_insert r t).2.num_rows = t.num_rows + 1 := by
          rw [execute_insert_num_rows, if_pos hfull]
        rw [hnum, if_pos hfull, if_pos (show t.num_rows + 0 < TABLE_MAX_ROWS by omega)]
        congr 1
        apply List.map_congr_left
        intro i _
        simp only [Function.comp_apply]
        exact if_congr (by omega) rfl rfl
      · have hnum : (execute_insert r t).2.num_rows = t.num_rows := by
          rw [execute_insert_num_rows, if_neg hfull]
        rw [hnum, if_neg hfull, if_neg (show ¬ t.num_rows + 0 < TABLE_MAX_ROWS by omega)]
        congr 1
        apply List.map_congr_left
        intro i _
        simp only [Function.comp_apply]
        exact if_congr (by omega) rfl rfl

theorem count_success_range (N : Nat) :
    (((List.range N).map
      (fun i => if i < TABLE_MAX_ROWS then ExecuteResult.EXECUTE_SUCCESS
        else ExecuteResult.EXECUTE_TABLE_FULL)).count
          ExecuteResult.EXECUTE_SUCCESS) = min N TABLE_MAX_ROWS := by
  induction N with
  | zero => rfl
  | succ n ih =>
      rw [List.range_succ, List.map_append, List.count_append, ih]
      simp only [List.map_cons, List.map_nil]
      by_cases h : n < TABLE_MAX_ROWS
      · rw [if_pos h,
          show ([ExecuteResult.EXECUTE_SUCCESS].count ExecuteResult.EXECUTE_SUCCESS)
            = 1 from rfl]
        omega
      · rw [if_neg h,
          show ([ExecuteResult.EXECUTE_TABLE_FULL].count ExecuteResult.EXECUTE_SUCCESS)
            = 0 from rfl]
        omega

theorem insertList_InvA (rs : List Row) :
    ∀ t : Table, InvA t → InvA (insertList rs t) := by
  induction rs with
  | nil => intro t hA; exact hA
  | cons r rs ih =>
      intro t hA
      rw [insertList_cons]
      exact ih _ (execute_insert_InvA r t hA)

theorem insertList_spec (rs : List Row) :
    ∀ t : Table, InvA t → InvB t → (∀ r ∈ rs, wfRow r) →
      t.num_rows + rs.length ≤ TABLE_MAX_ROWS →
      InvA (insertList rs t) ∧ InvB (insertList rs t) ∧
      (insertList rs t).num_rows = t.num_rows + rs.length ∧
      storedRows (insertList rs t) = storedRows t ++ rs := by
  induction rs with
  | nil =>
      intro t hA hB _ _
      rw [insertList_nil]
      exact ⟨hA, hB, by simp, by simp⟩
  | cons r rs ih =>
      intro t hA hB hwf hcap
      have hr : wfRow r := hwf r (by simp)
      have hlt : t.num_rows < TABLE_MAX_ROWS := by
        rw [List.length_cons] at hcap; omega
      have hnum : (execute_insert r t).2.num_rows = t.num_rows + 1 := by
        rw [execute_insert_num_rows, if_pos hlt]
      obtain ⟨ihA, ihB, ihn, ihs⟩ := ih (execute_insert r t).2
        (execute_insert_InvA r t hA) (execute_insert_InvB r t hA hB hr)
        (fun x hx => hwf x (List.mem_cons_of_mem r hx))
        (by rw [hnum]; rw [List.length_cons] at hcap; omega)
      rw [insertList_cons]
      refine ⟨ihA, ihB, ?_, ?_⟩
      · rw [ihn, hnum, List.length_cons]
        omega
      · rw [ihs, execute_insert_storedRows r t hA hB hr hlt]
        simp

theorem selectFrom_spec (k : Nat) :
    ∀ (i : Nat) (t : Table), InvA t → i + k ≤ t.num_rows →
      selectFrom t i k =
        (t, (List.range k).map fun j => deserialize_row (rowBytesAt t (i + j))) := by
  induction k with
  | zero => intro i t _ _; rfl
  | succ k ih =>
      intro i t hA h
      obtain ⟨hlen, hcap, hiff⟩ := hA
      have hip : i / ROWS_PER_PAGE < TABLE_MAX_PAGES := page_of_lt_max i (by omega)
      have hsome : (pageAt t (i / ROWS_PER_PAGE)).isSome := by
        rw [hiff _ hip]
        have := Nat.div_mul_le_self i ROWS_PER_PAGE
        omega
      have hsel : selectFrom t i (k + 1) =
          ((selectFrom t (i + 1) k).1,
            deserialize_row (rowBytesAt t i) :: (selectFrom t (i + 1) k).2) := by
        show ((selectFrom (row_slot t i).1 (i + 1) k).1, _) = _
        rw [row_slot_of_some t i hsome]
        rfl
      rw [hsel, ih (i + 1) t ⟨hlen, hcap, hiff⟩ (by omega),
        List.range_succ_eq_map, List.map_cons, List.map_map]
      refine congrArg _ ?_
      rw [Nat.add_zero]
      refine congrArg _ ?_
      apply List.map_congr_left
      intro j _
      simp only [Function.comp_apply]
      have hj : i + (j + 1) = i + 1 + j := by omega
      rw [hj]

theorem execute_select_spec (t : Table) (hA : InvA t) :
    execute_select t = (t, storedRows t) := by
  rw [execute_select, selectFrom_spec t.num_rows 0 t hA (by omega), storedRows]
  refine congrArg _ ?_
  apply List.map_congr_left
  intro j _
  rw [Nat.zero_add]

theorem reachable_inv (t : Table) (h : Reachable t) : InvA t ∧ InvB t := by
  induction h with
  | base => exact ⟨InvA_new_table, InvB_new_table⟩
  | insert r hwf ht ih =>
      exact ⟨execute_insert_InvA _ _ ih.1, execute_insert_InvB _ _ ih.1 ih.2 hwf⟩
  | select ht ih =>
      rw [execute_select_spec _ ih.1]
      exact ih

theorem reachable_insertList (rs : List Row) :
    ∀ t : Table, (∀ r ∈ rs, wfRow r) → Reachable t → Reachable (insertList rs t) := by
  induction rs with
  | nil => intro t _ h; exact h
  | cons r rs ih =>
      intro t hwf h
      rw [insertList_cons]
      exact ih _ (fun x hx => hwf x (List.mem_cons_of_mem r hx))
        (Reachable.insert r (hwf r (by simp)) h)

theorem free_scan_all_some (l : List (Option (List Nat)))
    (h : ∀ x ∈ l, x.isSome) : free_scan l = none := by
  induction l with
  | nil => rfl
  | cons x rest ih =>
      cases x with
      | none => simpa using h none (by simp)
      | some pg =>
          show (free_scan rest).map (· + 1) = none
          rw [ih (fun y hy => h y (List.mem_cons_of_mem _ hy))]
          rfl

theorem free_table_overrun (t : Table) (hA : InvA t)
    (h : (TABLE_MAX_PAGES - 1) * ROWS_PER_PAGE < t.num_rows) :
    free_table t = none := by
  obtain ⟨hlen, hcap, hiff⟩ := hA
  apply free_scan_all_some
  intro x hx
  obtain ⟨n, hn, hgetx⟩ := List.mem_iff_getElem.mp hx
  have hpage : pageAt t n = x := by
    rw [pageAt, List.getD_eq_getElem?_getD, List.getElem?_eq_getElem hn, hgetx]
    rfl
  rw [← hpage, hiff n (by rw [hlen] at hn; exact hn)]
  have hn100 : n < TABLE_MAX_PAGES := by rw [hlen] at hn; exact hn
  rw [TABLE_MAX_PAGES] at hn100
  rw [TABLE_MAX_PAGES, ROWS_PER_PAGE_eq] at h
  rw [ROWS_PER_PAGE_eq]
  omega

theorem zero_mem_of_fits (l : List Nat) :
    ∀ w : Nat, fitsWidth l w → w < l.length → 0 ∈ l := by
  induction l with
  | nil => intro w _ h; simp at h
  | cons b rest ih =>
      intro w hw hl
      by_cases hb : b = 0
      · rw [hb]; exact List.mem_cons_self 0 rest
      · have hcstr : cstr (b :: rest) = b :: cstr rest := by
          rw [cstr, List.takeWhile_cons_of_pos (by simpa using hb)]
          rfl
        rw [fitsWidth, hcstr, List.length_cons] at hw
        rw [List.length_cons] at hl
        exact List.mem_cons_of_mem b (ih (w - 1) (by rw [fitsWidth]; omega) (by omega))

theorem serialize_username_field (r : Row) (h : wfRow r) :
    readBytes (serialize_row r) USERNAME_OFFSET USERNAME_SIZE = r.username :=
  congrArg Row.username (deserialize_serialize r h)

theorem serialize_email_field (r : Row) (h : wfRow r) :
    readBytes (serialize_row r) EMAIL_OFFSET EMAIL_SIZE = r.email :=
  congrArg Row.email (deserialize_serialize r h)

/-- Zero-padding of a field's content to the fixed array width (used only
to build concrete sample rows). -/
def padField (content : List Nat) (width : Nat) : List Nat :=
  content ++ List.replicate (width - content.length) 0

/-- The bytes of the text `alice`. -/
def aliceName : List Nat := [97, 108, 105, 99, 101]

/-- The bytes of the text `alice@x.com`. -/
def aliceMail : List Nat := [97, 108, 105, 99, 101, 64, 120, 46, 99, 111, 109]

/-- The sample record `{id: 1, username: "alice", email: "alice@x.com"}`
of the specification, as the C `Row` value holds it. -/
def rowAlice : Row :=
  { id := 1
    username := padField aliceName USERNAME_SIZE
    email := padField aliceMail EMAIL_SIZE }

/-- A record whose username content has exactly `COLUMN_USERNAME_SIZE`
(32) bytes, the width boundary. -/
def rowBound : Row :=
  { id := 7
    username := List.replicate 32 97 ++ [0]
    email := padField aliceMail EMAIL_SIZE }

/-- A table whose counter is at capacity with nothing allocated, used
only to witness the full-table check (which reads nothing but the
counter). -/
def tableFull : Table :=
  { num_rows := TABLE_MAX_ROWS, pages := List.replicate TABLE_MAX_PAGES none }

/-- A table with page 0 allocated. -/
def tableOne : Table :=
  { num_rows := 1
    pages := (List.replicate TABLE_MAX_PAGES none).set 0 (some freshPage) }

/-- C1 (counterexample): the layout constants of the claim do not hold of
the code: with the width+1 text fields of the `Row` struct,
`ROW_SIZE` is not 291, `ROWS_PER_PAGE` is not 14 and `TABLE_MAX_ROWS` is
not 1400. -/
theorem C1_layout_counterexample :
    ¬ (ROW_SIZE = 291 ∧ ROWS_PER_PAGE = 14 ∧ TABLE_MAX_ROWS = 1400) := by
  decide

/-- C1 (amended): with username width 32, email width 255, id width 4 and
one extra terminator byte per text field, the compiled layout constants
satisfy `ROW_SIZE = 293`, `ROWS_PER_PAGE = floor(4096/293) = 13` and
`TABLE_MAX_ROWS = 1300`; consequently, after 1300 successful inserts the
1301st insert returns `TableFull` and `num_rows` remains 1300. -/
theorem C1_layout (rs : List Row) (r : Row) (h : rs.length = TABLE_MAX_ROWS) :
    ROW_SIZE = 293 ∧ ROWS_PER_PAGE = 13 ∧ TABLE_MAX_ROWS = 1300 ∧
    (insertList rs new_table).num_rows = 1300 ∧
    execute_insert r (insertList rs new_table) =
      (.EXECUTE_TABLE_FULL, insertList rs new_table) := by
  have hn : (insertList rs new_table).num_rows = 1300 := by
    rw [insertList_num_rows rs new_table (by rw [show new_table.num_rows = 0 from rfl]; omega),
      show new_table.num_rows = 0 from rfl, h, TABLE_MAX_ROWS_eq]
    omega
  refine ⟨ROW_SIZE_eq, ROWS_PER_PAGE_eq, TABLE_MAX_ROWS_eq, hn, ?_⟩
  apply execute_insert_full
  rw [hn, TABLE_MAX_ROWS_eq]

theorem C1_layout_witness :
    (List.replicate 1300 rowAlice).length = TABLE_MAX_ROWS ∧
    (insertList (List.replicate 1300 rowAlice) new_table).num_rows = 1300 ∧
    execute_insert rowAlice (insertList (List.replicate 1300 rowAlice) new_table) =
      (.EXECUTE_TABLE_FULL, insertList (List.replicate 1300 rowAlice) new_table) := by
  have h : (List.replicate 1300 rowAlice).length = TABLE_MAX_ROWS := by
    rw [List.length_replicate, TABLE_MAX_ROWS_eq]
  have := C1_layout (List.replicate 1300 rowAlice) rowAlice h
  exact ⟨h, this.2.2.2.1, this.2.2.2.2⟩

/-- C2: for every `Row` whose username and email are within their fixed
width limits (at most 32 and 255 content bytes before the terminator),
`deserialize_row (serialize_row R) = R`. -/
theorem C2_roundtrip (R : Row) (hwf : wfRow R)
    (hu : fitsWidth R.username COLUMN_USERNAME_SIZE)
    (he : fitsWidth R.email COLUMN_EMAIL_SIZE) :
    deserialize_row (serialize_row R) = R :=
  deserialize_serialize R hwf

theorem C2_roundtrip_witness :
    wfRow rowBound ∧ fitsWidth rowBound.username COLUMN_USERNAME_SIZE ∧
    fitsWidth rowBound.email COLUMN_EMAIL_SIZE ∧
    deserialize_row (serialize_row rowBound) = rowBound :=
  ⟨by decide, by decide, by decide,
    C2_roundtrip rowBound (by decide) (by decide) (by decide)⟩

/-- C3: on a fresh table, every one of the first `TABLE_MAX_ROWS` insert
calls succeeds and every call thereafter fails with `TableFull`;
`num_rows` afterwards equals the number of successful appends; and in
every reachable state `num_rows ≤ TABLE_MAX_PAGES * ROWS_PER_PAGE` with
every row index below `num_rows` backed by an allocated page. -/
theorem C3_capacity (rs : List Row) (t : Table) (hre : Reachable t) :
    (insertRun rs new_table).2 = (List.range rs.length).map
      (fun i => if i < TABLE_MAX_ROWS then ExecuteResult.EXECUTE_SUCCESS
        else ExecuteResult.EXECUTE_TABLE_FULL) ∧
    (insertList rs new_table).num_rows =
      (insertRun rs new_table).2.count ExecuteResult.EXECUTE_SUCCESS ∧
    t.num_rows ≤ TABLE_MAX_PAGES * ROWS_PER_PAGE ∧
    (∀ i, i < t.num_rows → (pageAt t (i / ROWS_PER_PAGE)).isSome) := by
  have hres : (insertRun rs new_table).2 = (List.range rs.length).map
      (fun i => if i < TABLE_MAX_ROWS then ExecuteResult.EXECUTE_SUCCESS
        else ExecuteResult.EXECUTE_TABLE_FULL) := by
    rw [insertRun_results]
    simp only [show new_table.num_rows = 0 from rfl, Nat.zero_add]
  obtain ⟨⟨hlen, hcap, hiff⟩, -⟩ := reachable_inv t hre
  refine ⟨hres, ?_, ?_, ?_⟩
  · rw [hres, count_success_range,
      insertList_num_rows rs new_table (by rw [show new_table.num_rows = 0 from rfl]; omega),
      show new_table.num_rows = 0 from rfl, Nat.zero_add]
  · rw [TABLE_MAX_ROWS_eq] at hcap
    rw [TABLE_MAX_PAGES, ROWS_PER_PAGE_eq]
    omega
  · intro i hi
    rw [hiff _ (page_of_lt_max i (lt_of_lt_of_le hi hcap))]
    exact lt_of_le_of_lt (Nat.div_mul_le_self i ROWS_PER_PAGE) hi

theorem C3_capacity_witness :
    (insertRun [rowAlice] new_table).2 = (List.range 1).map
      (fun i => if i < TABLE_MAX_ROWS then ExecuteResult.EXECUTE_SUCCESS
        else ExecuteResult.EXECUTE_TABLE_FULL) ∧
    new_table.num_rows ≤ TABLE_MAX_PAGES * ROWS_PER_PAGE := by
  have := C3_capacity [rowAlice] new_table Reachable.base
  exact ⟨this.1, this.2.2.1⟩

/-- C4: calling `execute_insert` on a table whose `num_rows` equals
`TABLE_MAX_ROWS` returns `TableFull` and leaves the table entirely
unchanged: same counter, same page-slot allocation, same page bytes. -/
theorem C4_full_insert (r : Row) (t : Table) (h : t.num_rows = TABLE_MAX_ROWS) :
    execute_insert r t = (.EXECUTE_TABLE_FULL, t) :=
  execute_insert_full r t (le_of_eq h.symm)

theorem C4_full_insert_witness :
    execute_insert rowAlice tableFull = (.EXECUTE_TABLE_FULL, tableFull) :=
  C4_full_insert rowAlice tableFull rfl

/-- C5: after successfully appending the records `rs` to a fresh table,
`execute_select` decodes and yields exactly `rs` in insertion order, and
leaves the table unchanged — so every subsequent call yields the same
sequence, traversing fresh from index 0 with `num_rows` as of call
time. -/
theorem C5_select_order (rs : List Row) (hwf : ∀ r ∈ rs, wfRow r)
    (hlen : rs.length ≤ TABLE_MAX_ROWS) :
    execute_select (insertList rs new_table) = (insertList rs new_table, rs) := by
  obtain ⟨hA, -, -, hs⟩ := insertList_spec rs new_table InvA_new_table InvB_new_table
    hwf (by rw [show new_table.num_rows = 0 from rfl]; omega)
  rw [execute_select_spec _ hA, hs, storedRows_new_table, List.nil_append]

theorem C5_select_order_witness :
    execute_select (insertList [rowAlice] new_table) =
      (insertList [rowAlice] new_table, [rowAlice]) :=
  C5_select_order [rowAlice] (by decide) (by decide)

/-- C6: a fresh table has `num_rows = 0` and no page allocated; after
appending `rs` (nonempty, within capacity) exactly the pages
`0 .. (rs.length - 1) / ROWS_PER_PAGE` are allocated; and `row_slot` on a
row whose page is already allocated changes nothing, so a page is
allocated only on the first `row_slot` request addressing it. -/
theorem C6_lazy_allocation (rs : List Row) (p : Nat) (t : Table) (n : Nat)
    (h0 : 0 < rs.length) (hle : rs.length ≤ TABLE_MAX_ROWS)
    (hp : p < TABLE_MAX_PAGES)
    (hsome : (pageAt t (n / ROWS_PER_PAGE)).isSome) :
    new_table.num_rows = 0 ∧
    (∀ q, pageAt new_table q = none) ∧
    ((pageAt (insertList rs new_table) p).isSome ↔
      p ≤ (rs.length - 1) / ROWS_PER_PAGE) ∧
    (row_slot t n).1 = t := by
  refine ⟨rfl, pageAt_new_table, ?_, ?_⟩
  · obtain ⟨hlen, hcap, hiff⟩ := insertList_InvA rs new_table InvA_new_table
    rw [hiff p hp,
      insertList_num_rows rs new_table (by rw [show new_table.num_rows = 0 from rfl]; omega),
      show new_table.num_rows = 0 from rfl]
    rw [TABLE_MAX_ROWS_eq] at hle ⊢
    rw [ROWS_PER_PAGE_eq]
    rw [TABLE_MAX_PAGES] at hp
    omega
  · rw [row_slot_of_some t n hsome]

theorem C6_lazy_allocation_witness :
    ((pageAt (insertList [rowAlice] new_table) 0).isSome ↔
      0 ≤ (([rowAlice] : List Row).length - 1) / ROWS_PER_PAGE) ∧
    (row_slot tableOne 0).1 = tableOne := by
  have := C6_lazy_allocation [rowAlice] 0 tableOne 0 (by decide) (by decide)
    (by decide) (by decide)
  exact ⟨this.2.2.1, this.2.2.2⟩

/-- C7: on a reachable table in which every page slot is allocated (for
example after 1288 successful inserts), the `free_table` loop — which has
no bound on its index — runs past the end of the `pages` array instead of
stopping after releasing exactly the allocated pages: `free_scan` reports
the out-of-bounds read (`none`).  This exhibits the missing
`i < TABLE_MAX_PAGES` bound in
`for (int i = 0; table->pages[i]; i++)`. -/
theorem C7_teardown_overrun (rs : List Row) (hwf : ∀ r ∈ rs, wfRow r)
    (h : (TABLE_MAX_PAGES - 1) * ROWS_PER_PAGE < rs.length) :
    Reachable (insertList rs new_table) ∧
    free_table (insertList rs new_table) = none := by
  refine ⟨reachable_insertList rs new_table hwf Reachable.base, ?_⟩
  apply free_table_overrun _ (insertList_InvA rs new_table InvA_new_table)
  rw [insertList_num_rows rs new_table (by rw [show new_table.num_rows = 0 from rfl]; omega),
    show new_table.num_rows = 0 from rfl]
  rw [TABLE_MAX_PAGES, ROWS_PER_PAGE_eq] at h ⊢
  rw [TABLE_MAX_ROWS_eq]
  omega

theorem C7_teardown_overrun_witness :
    free_table (insertList (List.replicate 1288 rowAlice) new_table) = none :=
  (C7_teardown_overrun (List.replicate 1288 rowAlice)
    (fun r hr => by rw [List.eq_of_mem_replicate hr]; decide)
    (by simp [TABLE_MAX_PAGES, ROWS_PER_PAGE_eq])).2

/-- C8: on every reachable table state, `execute_select` leaves the table
completely unchanged — counter, allocation status of every slot and every
page byte — and every page holding a row index below `num_rows` is
already allocated, so scanning never triggers an allocation. -/
theorem C8_select_pure (t : Table) (h : Reachable t) :
    (execute_select t).1 = t ∧
    (∀ i, i < t.num_rows → (pageAt t (i / ROWS_PER_PAGE)).isSome) := by
  obtain ⟨hA, -⟩ := reachable_inv t h
  refine ⟨by rw [execute_select_spec t hA], ?_⟩
  obtain ⟨hlen, hcap, hiff⟩ := hA
  intro i hi
  rw [hiff _ (page_of_lt_max i (lt_of_lt_of_le hi hcap))]
  exact lt_of_le_of_lt (Nat.div_mul_le_self i ROWS_PER_PAGE) hi

theorem C8_select_pure_witness :
    (execute_select (execute_insert rowAlice new_table).2).1 =
      (execute_insert rowAlice new_table).2 :=
  (C8_select_pure (execute_insert rowAlice new_table).2
    (Reachable.insert rowAlice (by decide) Reachable.base)).1

/-- C9: `prepare_insert` rejects every four-token insert line whose parsed
id is negative with `PREPARE_NEGATIVE_ID`, handing no record on; and it
permits id 0: an otherwise well-formed insert line whose id parses to 0
returns `PREPARE_SUCCESS` with the record's id field set to 0. -/
theorem C9_id_validation (l1 l2 kw1 ids1 u1 e1 kw2 ids2 u2 e2 : List Nat)
    (r1 r2 : List (List Nat))
    (h1 : tokenize l1 = kw1 :: ids1 :: u1 :: e1 :: r1)
    (hneg : atoi ids1 < 0)
    (h2 : tokenize l2 = kw2 :: ids2 :: u2 :: e2 :: r2)
    (hz : atoi ids2 = 0)
    (hu : (cstr u2).length ≤ COLUMN_USERNAME_SIZE)
    (he : (cstr e2).length ≤ COLUMN_EMAIL_SIZE) :
    prepare_insert l1 = (.PREPARE_NEGATIVE_ID, none) ∧
    ∃ row, prepare_insert l2 = (.PREPARE_SUCCESS, some row) ∧ row.id = 0 := by
  constructor
  · simp only [prepare_insert, h1]
    rw [if_pos hneg]
  · simp only [prepare_insert, h2]
    rw [if_neg (by omega), if_neg (not_lt.mpr hu), if_neg (not_lt.mpr he)]
    refine ⟨_, rfl, ?_⟩
    rw [hz]
    rfl

/-- The bytes of the line `insert -1 a b`. -/
def lineNeg : List Nat := [105, 110, 115, 101, 114, 116, 32, 45, 49, 32, 97, 32, 98]

/-- The bytes of the line `insert 0 a b`. -/
def lineZero : List Nat := [105, 110, 115, 101, 114, 116, 32, 48, 32, 97, 32, 98]

theorem C9_id_validation_witness :
    prepare_insert lineNeg = (.PREPARE_NEGATIVE_ID, none) ∧
    ∃ row, prepare_insert lineZero = (.PREPARE_SUCCESS, some row) ∧ row.id = 0 :=
  C9_id_validation lineNeg lineZero
    [105, 110, 115, 101, 114, 116] [45, 49] [97] [98]
    [105, 110, 115, 101, 114, 116] [48] [97] [98] [] []
    (by decide) (by decide) (by decide) (by decide) (by decide) (by decide)

/-- C10: the code implements the width+1 layout: each text field's fixed
serialized width is one byte more than the maximum text length
(`USERNAME_SIZE = 33`, `EMAIL_SIZE = 256`), so for every record within
the limits the serialized row holds a null terminator inside each text
field's fixed width, `deserialize_row` yields null-terminated strings,
and the C-string contents survive the round trip, making the full 32/255
content bytes usable. -/
theorem C10_width_plus_one (R : Row) (hwf : wfRow R)
    (hu : fitsWidth R.username COLUMN_USERNAME_SIZE)
    (he : fitsWidth R.email COLUMN_EMAIL_SIZE) :
    USERNAME_SIZE = COLUMN_USERNAME_SIZE + 1 ∧ EMAIL_SIZE = COLUMN_EMAIL_SIZE + 1 ∧
    USERNAME_SIZE = 33 ∧ EMAIL_SIZE = 256 ∧
    0 ∈ readBytes (serialize_row R) USERNAME_OFFSET USERNAME_SIZE ∧
    0 ∈ readBytes (serialize_row R) EMAIL_OFFSET EMAIL_SIZE ∧
    0 ∈ (deserialize_row (serialize_row R)).username ∧
    0 ∈ (deserialize_row (serialize_row R)).email ∧
    cstr (deserialize_row (serialize_row R)).username = cstr R.username ∧
    cstr (deserialize_row (serialize_row R)).email = cstr R.email := by
  have hrt := deserialize_serialize R hwf
  obtain ⟨hid, hul, hel⟩ := hwf
  have hu0 : 0 ∈ R.username :=
    zero_mem_of_fits R.username COLUMN_USERNAME_SIZE hu (by rw [hul]; decide)
  have he0 : 0 ∈ R.email :=
    zero_mem_of_fits R.email COLUMN_EMAIL_SIZE he (by rw [hel]; decide)
  refine ⟨rfl, rfl, rfl, rfl, ?_, ?_, ?_, ?_, by rw [hrt], by rw [hrt]⟩
  · rw [serialize_username_field R ⟨hid, hul, hel⟩]; exact hu0
  · rw [serialize_email_field R ⟨hid, hul, hel⟩]; exact he0
  · rw [hrt]; exact hu0
  · rw [hrt]; exact he0

theorem C10_width_plus_one_witness :
    wfRow rowBound ∧
    0 ∈ readBytes (serialize_row rowBound) USERNAME_OFFSET USERNAME_SIZE ∧
    cstr (deserialize_row (serialize_row rowBound)).username = cstr rowBound.username := by
  have := C10_width_plus_one rowBound (by decide) (by decide) (by decide)
  exact ⟨by decide, this.2.2.2.2.1, this.2.2.2.2.2.2.2.2.1⟩

end Db

